import Mathlib

/-!
# Verification of the zanzibar mix-node against its specification

This file is a shallow embedding, in Lean 4, of the parts of the
`tcerqueira/zanzibar` repository that the specification's claims talk about:

* the remix kernel `remix/src/lib.rs` and `remix/src/par.rs`
  (`shuffle_pairs`, `shuffle_bits`, `rerandomise`, `ct_rerandomise`, `remix`);
* the crypto layer `mix-node/src/crypto.rs`
  (`remix`, `encrypt`, `decryption_share_for`, `decrypt_shares`,
  `hamming_distance`);
* the REST layer `mix-node/src/rest/` (`remix_handler`, `hamming_distance`
  handler, `request_all_shares`, the peer remix chain, `auth_middleware`,
  and the error-to-status mapping of `rest/error.rs`).

## Modelling conventions

* The ElGamal/Ristretto algebra lives in the external `elastic_elgamal`
  crate; the spec (section 3 and section 4.1) pins its algebraic contract.
  We embed it in "exponent form": a group element `g^a` is represented by
  its exponent `a : Rat`.  A ciphertext `(R, C) = (r*G, m*G + r*K)` becomes
  the pair of exponents `(r, m + r*k)` where `k` is the discrete log of the
  public key `K`.  Working over `Rat` makes every definition computable and
  lets threshold (Shamir/Lagrange) reconstruction be carried out literally.
* Randomness: every `rng.gen_range`, `rng.gen` or fresh-scalar draw is
  modelled by an explicit stream (a function out of `Nat`), universally
  quantified in the theorems.  `gen_range(a..b)` on a non-empty range is
  modelled as `a + raw % (b - a)`, which reaches exactly the values of
  `[a, b)`; on an empty range it panics, modelled by `Option.none`.
* Panics (failed `assert_eq!`, arithmetic underflow on `usize`, slice
  index out of bounds, `gen_range` on an empty range) are modelled by
  `Option.none` / a dedicated `panicked` outcome.
-/

/-! ## ElGamal in exponent form

Modelled from the spec: the external `elastic_elgamal` ciphertext algebra,
section 3 "Ciphertext. ... a pair `(R, C) = (rG, m*G + r*K)`" and
section 4.1 (`encrypt`, ciphertext addition used by rerandomisation).
-/

/-- A ciphertext `(R, C)` in exponent form: `random_element` is the exponent
of `R = r*G` and `blinded_element` the exponent of `C = m*G + r*K`. -/
structure Ct where
  random_element : Rat
  blinded_element : Rat
deriving DecidableEq, Repr, Inhabited

/-- Modelled from the spec: `encrypt(pk, m)` with explicit randomness `r`;
`(r*G, m*G + r*K)` in exponent form, where `k` is the exponent of the
public key. -/
def encryptCt (k m r : Rat) : Ct :=
  ⟨r, m + r * k⟩

/-- Modelled from the spec: componentwise ciphertext addition
(`impl Add for Ciphertext` of `elastic_elgamal`), required for
rerandomisation (`C' = C + Enc(0; r')`). -/
def addCt (a b : Ct) : Ct :=
  ⟨a.random_element + b.random_element, a.blinded_element + b.blinded_element⟩

/-- Modelled from the spec: full decryption with the secret key `k`:
the plaintext exponent is `C - k*R`. -/
def decryptCt (k : Rat) (ct : Ct) : Rat :=
  ct.blinded_element - k * ct.random_element

/-! ## List swapping machinery

`slice::swap(i, j)` of Rust, and sequences of simultaneous swaps applied to
both code slices.  All indices appearing in the generated swap sequences are
proved in bounds, matching the fact that the Rust code never triggers the
out-of-bounds panic of `slice::swap` on the paths we model.
-/

/-- Rust's `slice::swap(i, j)` on a list.  Out-of-bounds indices leave the
list unchanged; on every path where the embedded code calls it, the indices
are in bounds (proved below), so the Rust out-of-bounds panic is
unreachable there. -/
def lswap (l : List α) (i j : Nat) : List α :=
  match l[i]?, l[j]? with
  | some a, some b => (l.set i b).set j a
  | _, _ => l

/-- Where the element at position `i` ends up after the swap `(a, b)`. -/
def swapPos (a b i : Nat) : Nat :=
  if i = a then b else if i = b then a else i

/-- Apply a sequence of swaps, in order, to one list. -/
def applySwaps (ops : List (Nat × Nat)) (l : List α) : List α :=
  ops.foldl (fun acc op => lswap acc op.1 op.2) l

/-- Apply a sequence of swaps, in order, simultaneously to both lists:
this is the shape of every loop iteration of `shuffle_pairs` and
`shuffle_bits` (`remix/src/lib.rs` lines 16-42), which perform the same
`swap` calls on `x_cipher` and on `y_cipher`. -/
def applySwapsBoth (ops : List (Nat × Nat)) (x y : List α) : List α × List α :=
  ops.foldl (fun acc op => (lswap acc.1 op.1 op.2, lswap acc.2 op.1 op.2)) (x, y)

/-- Where the element at position `i` ends up after a swap sequence. -/
def posMap (ops : List (Nat × Nat)) (i : Nat) : Nat :=
  ops.foldl (fun j op => swapPos op.1 op.2 j) i

/-! ## The remix kernel (`remix/src/lib.rs`, `remix/src/par.rs`) -/

namespace Remix

/-- The swap operations performed by the `shuffle_pairs` loop
(`remix/src/lib.rs` lines 20-28) for the pair indices in `ps`, with
`tp = total_pairs = x_cipher.len() / 2`.  At pair index `p` the Rust code
draws `swap_pair = rng.gen_range(p..tp)`; we model the draw as
`p + f p % (tp - p)` (exactly the values of `[p, tp)`), and as `none` when
the range is empty (`gen_range` panics then).  The loop then swaps array
positions `(2p, 2q)` and `(2p+1, 2q+1)` in both slices. -/
def genPairOps (f : Nat → Nat) (tp : Nat) : List Nat → Option (List (Nat × Nat))
  | [] => some []
  | p :: ps =>
    if tp ≤ p then none
    else
      (genPairOps f tp ps).map fun rest =>
        let q := p + f p % (tp - p)
        (2 * p, 2 * q) :: (2 * p + 1, 2 * q + 1) :: rest

/-- Source function `shuffle_pairs` (`remix/src/lib.rs` lines 16-29).  The Rust loop runs
over `(0..x_cipher.len() - STEP).step_by(STEP).enumerate()` with `STEP = 2`,
i.e. over pair indices `0, 1, ..., (len-1)/2 - 1` with array index
`arr_idx = 2 * pair_idx`.  For `len < 2` the unsigned subtraction
`x_cipher.len() - STEP` underflows: in debug builds that subtraction panics,
and in release builds the first `gen_range(0..0)` panics, so the function
panics either way, modelled by `none`.  The leading `assert_eq!` of the two
lengths is modelled the same way. -/
def shuffle_pairs (f : Nat → Nat) (x y : List α) : Option (List α × List α) :=
  if x.length ≠ y.length then none
  else if x.length < 2 then none
  else
    (genPairOps f (x.length / 2) (List.range ((x.length - 1) / 2))).map
      fun ops => applySwapsBoth ops x y

/-- The swap operations performed by the `shuffle_bits` loop
(`remix/src/lib.rs` lines 33-42) for the iteration indices in `ks`
(the loop runs over `(0..len).step_by(2)`, so iteration `k` works on array
index `i = 2k`).  On a coin flip of `true` it swaps positions `i` and
`i + 1` in both slices; if `i + 1` is out of bounds (odd length, last
element) `slice::swap` panics, modelled by `none`. -/
def genBitOps (c : Nat → Bool) (len : Nat) : List Nat → Option (List (Nat × Nat))
  | [] => some []
  | k :: ks =>
    if c k then
      if 2 * k + 1 < len then
        (genBitOps c len ks).map fun rest => (2 * k, 2 * k + 1) :: rest
      else none
    else genBitOps c len ks

/-- Source function `shuffle_bits` (`remix/src/lib.rs` lines 33-42): for each pair, with a
coin flip `c`, swap the two positions of the pair in both slices. -/
def shuffle_bits (c : Nat → Bool) (x y : List α) : Option (List α × List α) :=
  if x.length ≠ y.length then none
  else
    (genBitOps c x.length (List.range ((x.length + 1) / 2))).map
      fun ops => applySwapsBoth ops x y

/-- Source function `ct_rerandomise` (`remix/src/lib.rs` lines 79-88):
`*ciphertext + public_key.encrypt(0u32, rng)`, with the fresh scalar drawn
from the rng modelled by the explicit `r`. -/
def ct_rerandomise (ct : Ct) (k r : Rat) : Ct :=
  addCt ct (encryptCt k 0 r)

/-- Source function `rerandomise` (`remix/src/lib.rs` lines 45-60 and the parallel variant
`remix/src/par.rs` lines 5-20): zip the two slices (stopping at the shorter
one, as `Iterator::zip` does; elements past the common length stay
untouched) and replace each component by its rerandomisation with an
independent fresh scalar.  Position `i` of `x` consumes stream element
`rs (2*i)` and position `i` of `y` consumes `rs (2*i + 1)`. -/
def rerandomise (k : Rat) (rs : Nat → Rat) (x y : List Ct) : List Ct × List Ct :=
  let n := min x.length y.length
  ( (List.range n).map (fun i => ct_rerandomise (x.getD i default) k (rs (2 * i))) ++ x.drop n
  , (List.range n).map (fun i => ct_rerandomise (y.getD i default) k (rs (2 * i + 1))) ++ y.drop n )

/-- Source function `remix` (`remix/src/lib.rs` lines 64-77 and `remix/src/par.rs` lines
23-36 — the two differ only in how `rerandomise` schedules its rng draws,
which the stream `rs` abstracts): assert equal lengths, then
`shuffle_pairs`, `shuffle_bits`, `rerandomise` in this order. -/
def remix (f : Nat → Nat) (c : Nat → Bool) (rs : Nat → Rat) (k : Rat)
    (x y : List Ct) : Option (List Ct × List Ct) :=
  if x.length ≠ y.length then none
  else do
    let sp ← shuffle_pairs f x y
    let sb ← shuffle_bits c sp.1 sp.2
    pure (rerandomise k rs sb.1 sb.2)

end Remix

/-! ## Fisher-Yates pair shuffle as worded by the spec (for refinement) -/

namespace SpecModel

/-- Modelled from the spec, for comparison with the source's
`shuffle_pairs`: section 4.2 — "Perform a Fisher-Yates permutation over pair
indices `[0, n/2)`; for each pair index `p` (ascending), pick `q ∈ [p, n/2)`
and swap positions `(2p, 2p+1)` with `(2q, 2q+1)` in both `x` and `y`
simultaneously."  The pick is the same rng-draw model as in
`Remix.genPairOps`, so that source and spec can be compared under one choice
stream. -/
def fisherYatesPairOps (f : Nat → Nat) (tp : Nat) : List Nat → List (Nat × Nat)
  | [] => []
  | p :: ps =>
    let q := p + f p % (tp - p)
    (2 * p, 2 * q) :: (2 * p + 1, 2 * q + 1) :: fisherYatesPairOps f tp ps

/-- Modelled from the spec: `shuffle_pairs` as section 4.2 words it, running
over every pair index of `[0, n/2)` (total; no panic cases). -/
def shuffle_pairs (f : Nat → Nat) (x y : List α) : List α × List α :=
  applySwapsBoth (fisherYatesPairOps f (x.length / 2) (List.range (x.length / 2))) x y

end SpecModel

/-! ## The crypto layer (`mix-node/src/crypto.rs`) -/

namespace Crypto

/-- Result of `crypto::remix` (`mix-node/src/crypto.rs` lines 114-127),
keeping track of the panic (from the inner `remix::par::remix`) as a
separate outcome from the `CryptoError::InvalidLength` error. -/
inductive RemixResult where
  | ok (x y : List Ct)
  | invalidLength
  | panicked
deriving DecidableEq, Repr

/-- Source function `crypto::remix` (`mix-node/src/crypto.rs` lines 114-127): reject
mismatched or odd lengths with `CryptoError::InvalidLength`, otherwise run
`remix::par::remix` (which can panic; see `Remix.remix`). -/
def remix (f : Nat → Nat) (c : Nat → Bool) (rs : Nat → Rat) (k : Rat)
    (x y : List Ct) : RemixResult :=
  if x.length ≠ y.length ∨ x.length % 2 = 1 then .invalidLength
  else
    match Remix.remix f c rs k x y with
    | some (a, b) => .ok a b
    | none => .panicked

/-- Split a list into chunks of `n` elements (the last chunk may be
shorter): the raw `usize` backing words of a `BitVec`
(`bits.as_raw_slice()`), each holding `n = 64` bits in Lsb0 order. -/
def chunksOf (n : Nat) (l : List α) : List (List α) :=
  if l.isEmpty ∨ n = 0 then []
  else l.take n :: chunksOf n (l.drop n)
termination_by l.length
decreasing_by
  rename_i h
  simp only [not_or, List.isEmpty_iff] at h
  simp only [List.length_drop]
  have hl : l.length ≠ 0 := fun h0 => h.1 (List.eq_nil_of_length_eq_zero h0)
  omega

/-- The value of one raw backing word: bit `j` of the word is element `j`
of the chunk (Lsb0 order, as `bitvec`'s default `Lsb0` stores it). -/
def packChunk : List Bool → Nat
  | [] => 0
  | b :: t => (if b then 1 else 0) + 2 * packChunk t

/-- Source function `crypto::encrypt` (`mix-node/src/crypto.rs` lines 133-151): iterate the
raw backing words (`chunk_size = 8 * size_of::<usize>() = 64` bits on the
64-bit targets the crate builds for), and for each word encrypt the bits
`(chunk >> bit_offset) & 1` for `bit_offset` in
`0 .. min(start_bit + chunk_size, bits.len()) - start_bit`.  The fresh
scalar of the encryption of global bit `i` is `rs i`. -/
def encrypt (k : Rat) (rs : Nat → Rat) (bits : List Bool) : List Ct :=
  ((chunksOf 64 bits).enum).flatMap fun ci_chunk =>
    let chunk_size := 64
    let start_bit := ci_chunk.1 * chunk_size
    let end_bit := min (start_bit + chunk_size) bits.length
    (List.range (end_bit - start_bit)).map fun bit_offset =>
      encryptCt k (((packChunk ci_chunk.2 >>> bit_offset) &&& 1 : Nat) : Rat)
        (rs (start_bit + bit_offset))

/-- Source type `DecryptionShare` (`mix-node/src/crypto.rs` lines 72-94): the
participant's index and, per ciphertext, a `(VerifiableDecryption,
LogEqualityProof)` pair.  In exponent form the verifiable decryption is the
scalar `s_i * R`; the log-equality proof is abstracted to its validity
bit. -/
structure DecryptionShare where
  index : Nat
  share : List (Rat × Bool)
deriving DecidableEq, Repr

/-- Horner evaluation of the dealer polynomial given by its coefficient
list (constant coefficient first). -/
def polyEval (coeffs : List Rat) (x : Rat) : Rat :=
  coeffs.foldr (fun a acc => a + x * acc) 0

/-- Modelled from the spec: `PublicKeySet` (section 3) with parameters
`{n, t}`, together with the offline dealer's secret polynomial (degree
`< t`, i.e. `t` coefficients) that the external `elastic_elgamal` sharing
scheme is built on.  In exponent form the per-participant verification keys
and the secret shares coincide with the polynomial values, so the one
structure carries the whole key material. -/
structure KeySet where
  n : Nat
  t : Nat
  coeffs : List Rat
deriving DecidableEq, Repr

/-- Shamir evaluation node of participant `i`: `elastic_elgamal` evaluates
the dealer polynomial at `i + 1` for the participant of index `i`. -/
def node (i : Nat) : Rat :=
  (i : Rat) + 1

/-- Modelled from the spec: participant `i`'s secret share, the dealer
polynomial at `node i`. -/
def secretShare (ks : KeySet) (i : Nat) : Rat :=
  polyEval ks.coeffs (node i)

/-- Modelled from the spec: the shared public key, the dealer polynomial at
`0` (in exponent form). -/
def sharedKey (ks : KeySet) : Rat :=
  polyEval ks.coeffs 0

/-- Source function `crypto::decryption_share_for` (`mix-node/src/crypto.rs` lines
157-169): participant `i` emits, for each ciphertext, its verifiable
decryption `s_i * R` with a valid proof. -/
def decryption_share_for (ks : KeySet) (i : Nat) (cts : List Ct) : DecryptionShare :=
  ⟨i, cts.map fun ct => (secretShare ks i * ct.random_element, true)⟩

/-- Modelled from the spec: section 4.1 `verify_share(share, ct, index,
proof) -> Result<VerifiedShare, VerifyError>` — the share verifies exactly
when the log-equality proof is valid, which attests that the share is
participant `index`'s partial decryption `s_index * R` of `ct`. -/
def verify_share (ks : KeySet) (v : Rat) (proofOk : Bool) (ct : Ct) (i : Nat) : Option Rat :=
  if proofOk ∧ v = secretShare ks i * ct.random_element then some v else none

/-- Lagrange coefficient at `0` of the node of `i` among the nodes of
`idxs` (the standard combination weight of the threshold scheme). -/
def lagCoeff (idxs : List Nat) (i : Nat) : Rat :=
  ((idxs.filter fun j => j ≠ i).map fun j => node j / (node j - node i)).prod

/-- Modelled from the spec: section 4.1
`combine_shares(iter<(index, VerifiedShare)>) -> Option<CombinedDecryption>`
(`None` if fewer than threshold verified shares); with enough shares it
forms the Lagrange combination at `0` of the partial decryptions, the
exponent of the combined decryption element `k * R`. -/
def combine_shares (t : Nat) (pairs : List (Nat × Rat)) : Option Rat :=
  if pairs.length < t then none
  else some ((pairs.map fun p => lagCoeff (pairs.map Prod.fst) p.1 * p.2).sum)

/-- Modelled from the spec: section 4.1 `decrypt_with_table` — subtract the
combined decryption from the blinded element and look the result up in the
discrete-log table restricted to `{0, 1}` (`LOOKUP_TABLE`,
`mix-node/src/crypto.rs` lines 99-100). -/
def combinedDecrypt (d : Rat) (ct : Ct) : Option Nat :=
  if ct.blinded_element - d = 0 then some 0
  else if ct.blinded_element - d = 1 then some 1
  else none

/-- The body of the per-ciphertext closure of `crypto::decrypt_shares`
(`mix-node/src/crypto.rs` lines 190-208): verify every participant's entry
for ciphertext `ctIdx` (`s.share[ct_idx]` is in bounds by the caller's
length guard; invalid entries are dropped by the `filter_map`), combine the
verified shares, decrypt against the `{0,1}` lookup table, and return the
bit `m == 1`. -/
def decrypt_one (ks : KeySet) (enc : List Ct) (shares : List DecryptionShare)
    (ctIdx : Nat) : Except String Bool :=
  let ct := enc.getD ctIdx default
  let decIter := shares.filterMap fun s =>
    match s.share[ctIdx]? with
    | some (v, proofOk) => (verify_share ks v proofOk ct s.index).map fun vv => (s.index, vv)
    | none => none
  match combine_shares ks.t decIter with
  | none => .error "failed to combine shares"
  | some d =>
    match combinedDecrypt d ct with
    | none => .error "decrypted values out of range of lookup table"
    | some m => .ok (m == 1)

/-- Source function `crypto::decrypt_shares` (`mix-node/src/crypto.rs` lines 175-212):
error when any share list length differs from the batch length; otherwise
run `decrypt_one` over every ciphertext index, propagating the first
error. -/
def decrypt_shares (ks : KeySet) (enc : List Ct) (shares : List DecryptionShare) :
    Except String (List Bool) :=
  if shares.any fun s => s.share.length ≠ enc.length then
    .error "mismatch of lengths between encrypted ciphertext a decryption shares"
  else
    (List.range enc.length).mapM (decrypt_one ks enc shares)

/-- Source function `crypto::hamming_distance` (`mix-node/src/crypto.rs` lines 218-221):
xor the two bit vectors and count ones.  (The source carries the open
question "what if x and y are different sizes?"; the xor is taken over the
common prefix here, and no claim depends on that case.) -/
def hamming_distance (x y : List Bool) : Nat :=
  ((x.zip y).map fun p => xor p.1 p.2).count true

end Crypto

/-! ## The REST layer (`mix-node/src/rest/`) -/

namespace Rest

/-- The observable outcome of a handler, after `rest/error.rs` lines 33-49
maps `Error::InvalidLength` to `400 Bad Request` and `Error::Unexpected`
to `500 Internal Server Error`; a propagated panic aborts the connection
without a status. -/
inductive HandlerOutcome (α : Type) where
  | ok (a : α)
  | badRequest
  | internalError
  | panicked
deriving DecidableEq, Repr

/-- The HTTP status code of an outcome (`none` when the task panicked and
no response is produced). -/
def status : HandlerOutcome α → Option Nat
  | .ok _ => some 200
  | .badRequest => some 400
  | .internalError => some 500
  | .panicked => none

/-- Source type `EncryptedCodes` (`mix-node/src/lib.rs` lines 59-75): two ciphertext
sequences and an optional encryption key (in exponent form). -/
structure EncryptedCodes where
  x_code : List Ct
  y_code : List Ct
  enc_key : Option Rat
deriving DecidableEq, Repr

/-- Source function `remix_handler` (`mix-node/src/rest/routes.rs` lines 49-66): run
`crypto::remix` on the codes under `enc_key` or the server's shared key,
propagating `CryptoError` through `Error` to the response status. -/
def remix_handler (f : Nat → Nat) (c : Nat → Bool) (rs : Nat → Rat)
    (sharedKey : Rat) (codes : EncryptedCodes) : HandlerOutcome EncryptedCodes :=
  match Crypto.remix f c rs (codes.enc_key.getD sharedKey) codes.x_code codes.y_code with
  | .ok x y => .ok ⟨x, y, codes.enc_key⟩
  | .invalidLength => .badRequest
  | .panicked => .panicked

/-- A pair of code sequences as threaded through the `/hamming` peer
chain. -/
def Codes := (List Ct) × (List Ct)

/-- One peer's `/remix` response to a `request_remix` call
(`mix-node/src/rest/routes.rs` lines 309-332): `none` models any failure
(transport error, non-OK status, body that does not decode). -/
def PeerRemix := Codes → Option Codes

/-- The peer-remix chain of the `/hamming` handler
(`mix-node/src/rest/routes.rs` lines 217-227):
`(x_code, y_code) = request_remix(...).await.unwrap_or((x_code, y_code))`
— each peer in order transforms the current codes, and on failure the
previous codes are kept. -/
def remixChain (peers : List PeerRemix) (cs : Codes) : Codes :=
  peers.foldl (fun cur p => (p cur).getD cur) cs

/-- The collection loop of `request_all_shares`
(`mix-node/src/rest/routes.rs` lines 294-304): race the outstanding
requests while fewer than `t1` shares are collected and requests remain;
push each success, drop each failure.  `rs` is the list of request results
in completion order. -/
def collectLoop (t1 : Nat) : List (Option σ) → List σ → List σ
  | [], acc => acc
  | r :: rest, acc =>
    if t1 ≤ acc.length then acc
    else
      match r with
      | some s => collectLoop t1 rest (acc ++ [s])
      | none => collectLoop t1 rest acc

/-- Source function `request_all_shares` (`mix-node/src/rest/routes.rs` lines 280-307):
collect peer decryption shares until
`threshold - 1` (the node contributes its own share separately) are
gathered or no request remains. -/
def request_all_shares (threshold : Nat) (resps : List (Option σ)) : List σ :=
  collectLoop (threshold - 1) resps []

/-- The `/hamming` handler (`mix-node/src/rest/routes.rs` lines 196-278):
self-remix (`crypto::remix` under the shared key; a `CryptoError` maps to
400, a panic propagates), then the serial peer-remix chain, then share
collection (peer responses `xResps`/`yResps` in completion order, plus the
self share appended at the end), then the two `decrypt_shares` (an error in
either maps to 500), then the Hamming distance of the decrypted bits. -/
def hamming_distance (f : Nat → Nat) (c : Nat → Bool) (rs : Nat → Rat)
    (ks : Crypto.KeySet) (selfIdx : Nat) (peers : List PeerRemix)
    (xResps yResps : List (Option Crypto.DecryptionShare))
    (codes : EncryptedCodes) : HandlerOutcome Nat :=
  match Crypto.remix f c rs (Crypto.sharedKey ks) codes.x_code codes.y_code with
  | .invalidLength => .badRequest
  | .panicked => .panicked
  | .ok x y =>
    let cs := remixChain peers (x, y)
    let xShares := request_all_shares ks.t xResps ++
      [Crypto.decryption_share_for ks selfIdx cs.1]
    let yShares := request_all_shares ks.t yResps ++
      [Crypto.decryption_share_for ks selfIdx cs.2]
    match Crypto.decrypt_shares ks cs.1 xShares, Crypto.decrypt_shares ks cs.2 yShares with
    | .ok xb, .ok yb => .ok (Crypto.hamming_distance xb yb)
    | _, _ => .internalError

/-- Outcome of the bearer-token middleware. -/
inductive AuthOutcome where
  | routed
  | unauthorized
deriving DecidableEq, Repr

/-- Source function `auth_middleware` (`mix-node/src/rest/middleware.rs` lines 16-37, and
identically `lambda/src/lib.rs` lines 73-92): match on the configured token
and the request's bearer header. -/
def auth_middleware (authToken : Option String) (authHeader : Option String) : AuthOutcome :=
  match authToken, authHeader with
  | some tok, some hdr => if tok = hdr then .routed else .unauthorized
  | none, _ => .routed
  | some _, none => .unauthorized

end Rest

/-! ## Concrete instances used by claim witnesses -/

/-- A concrete key set for witnesses: `n = 3`, `t = 2`, dealer polynomial
`5 + 3x`. -/
def ksW : Crypto.KeySet := ⟨3, 2, [5, 3]⟩

/-- A concrete two-bit encrypted batch under `ksW`'s shared key. -/
def encW : List Ct := List.zipWith
  (fun b r => encryptCt (Crypto.sharedKey ksW) (if b then 1 else 0) r)
  [true, false] [2, 7]

/-!
# Theorems

Helper lemmas first, then for each claim its theorem (and witness or
counterexample where required).
-/

theorem decryptCt_encryptCt (k m r : Rat) : decryptCt k (encryptCt k m r) = m := by
  simp [decryptCt, encryptCt]
  ring

@[simp]
theorem length_lswap (l : List α) (i j : Nat) : (lswap l i j).length = l.length := by
  unfold lswap
  cases l[i]? <;> cases l[j]? <;> simp

theorem set_of_getElem? {l : List α} {i : Nat} {a : α} (h : l[i]? = some a) :
    l.set i a = l := by
  have hi : i < l.length := by
    by_contra hge
    rw [List.getElem?_eq_none (by omega)] at h
    exact Option.noConfusion h
  apply List.ext_getElem?
  intro n
  rw [List.getElem?_set]
  by_cases hin : i = n
  · subst hin
    rw [if_pos rfl, if_pos hi, h]
  · rw [if_neg hin]

theorem lswap_self (l : List α) (i : Nat) : lswap l i i = l := by
  unfold lswap
  cases h : l[i]? with
  | none => simp
  | some a =>
    simp only
    rw [List.set_set, set_of_getElem? h]

theorem swapPos_lt {a b i n : Nat} (ha : a < n) (hb : b < n) (hi : i < n) :
    swapPos a b i < n := by
  unfold swapPos
  split
  · exact hb
  · split
    · exact ha
    · exact hi

/-- The content at position `i` before a swap is found at `swapPos a b i`
afterwards. -/
theorem lswap_getElem? (l : List α) {a b i : Nat}
    (ha : a < l.length) (hb : b < l.length) (_hi : i < l.length) :
    (lswap l a b)[swapPos a b i]? = l[i]? := by
  have hga : l[a]? = some l[a] := List.getElem?_eq_getElem ha
  have hgb : l[b]? = some l[b] := List.getElem?_eq_getElem hb
  unfold lswap
  rw [hga, hgb]
  simp only [swapPos]
  by_cases hia : i = a
  · rw [if_pos hia]
    rw [List.getElem?_set_self (by simpa using hb), hia, hga]
  · by_cases hib : i = b
    · rw [if_neg hia, if_pos hib]
      have hba : ¬ b = a := fun h => hia (hib.trans h)
      rw [List.getElem?_set_ne hba, List.getElem?_set_self ha, hib, hgb]
    · rw [if_neg hia, if_neg hib]
      rw [List.getElem?_set_ne (fun h => hib h.symm), List.getElem?_set_ne (fun h => hia h.symm)]

theorem applySwapsBoth_eq (ops : List (Nat × Nat)) (x y : List α) :
    applySwapsBoth ops x y = (applySwaps ops x, applySwaps ops y) := by
  induction ops generalizing x y with
  | nil => rfl
  | cons op rest ih => simp [applySwapsBoth, applySwaps] at ih ⊢; exact ih _ _

@[simp]
theorem length_applySwaps (ops : List (Nat × Nat)) (l : List α) :
    (applySwaps ops l).length = l.length := by
  induction ops generalizing l with
  | nil => rfl
  | cons op rest ih => simp [applySwaps] at ih ⊢; rw [ih, length_lswap]

/-- An in-bounds swap sequence moves positions injectively: the content at
position `i` of `l` is found at `posMap ops i` of `applySwaps ops l`. -/
theorem applySwaps_getElem? (ops : List (Nat × Nat)) (l : List α) (i : Nat)
    (hops : ∀ op ∈ ops, op.1 < l.length ∧ op.2 < l.length) (hi : i < l.length) :
    posMap ops i < l.length ∧ (applySwaps ops l)[posMap ops i]? = l[i]? := by
  induction ops generalizing l i with
  | nil => exact ⟨hi, rfl⟩
  | cons op rest ih =>
    have hop := hops op (List.mem_cons_self op rest)
    have hrest : ∀ o ∈ rest, o.1 < (lswap l op.1 op.2).length ∧ o.2 < (lswap l op.1 op.2).length := by
      intro o ho
      rw [length_lswap]
      exact hops o (List.mem_cons_of_mem op ho)
    have hi2 : swapPos op.1 op.2 i < (lswap l op.1 op.2).length := by
      rw [length_lswap]
      exact swapPos_lt hop.1 hop.2 hi
    obtain ⟨h1, h2⟩ := ih (lswap l op.1 op.2) (swapPos op.1 op.2 i) hrest hi2
    refine ⟨by simpa using h1, ?_⟩
    simp only [applySwaps, posMap, List.foldl_cons] at h2 ⊢
    rw [h2, lswap_getElem? l hop.1 hop.2 hi]

namespace Remix

theorem genPairOps_sound (f : Nat → Nat) (tp : Nat) (ps : List Nat)
    (hps : ∀ p ∈ ps, p < tp) :
    ∃ ops, genPairOps f tp ps = some ops ∧
      ∀ op ∈ ops, op.1 < 2 * tp ∧ op.2 < 2 * tp := by
  induction ps with
  | nil => exact ⟨[], rfl, by simp⟩
  | cons p ps ih =>
    have hp : p < tp := hps p (List.mem_cons_self p ps)
    obtain ⟨ops, hops, hbound⟩ := ih (fun q hq => hps q (List.mem_cons_of_mem p hq))
    have hq : p + f p % (tp - p) < tp := by
      have := Nat.mod_lt (f p) (y := tp - p) (by omega)
      omega
    refine ⟨(2 * p, 2 * (p + f p % (tp - p))) ::
        (2 * p + 1, 2 * (p + f p % (tp - p)) + 1) :: ops, ?_, ?_⟩
    · simp only [genPairOps, if_neg (by omega : ¬ tp ≤ p), hops, Option.map_some']
    · intro op hop
      simp only [List.mem_cons] at hop
      rcases hop with h | h | h
      · subst h; constructor <;> omega
      · subst h; constructor <;> omega
      · exact hbound op h

theorem genBitOps_sound (c : Nat → Bool) (len : Nat) (ks : List Nat)
    (hks : ∀ k ∈ ks, 2 * k + 1 < len) :
    ∃ ops, genBitOps c len ks = some ops ∧
      ∀ op ∈ ops, op.1 < len ∧ op.2 < len := by
  induction ks with
  | nil => exact ⟨[], rfl, by simp⟩
  | cons k ks ih =>
    have hk : 2 * k + 1 < len := hks k (List.mem_cons_self k ks)
    obtain ⟨ops, hops, hbound⟩ := ih (fun q hq => hks q (List.mem_cons_of_mem k hq))
    by_cases hc : c k
    · refine ⟨(2 * k, 2 * k + 1) :: ops, ?_, ?_⟩
      · simp only [genBitOps, hc, if_pos hk, hops, Option.map_some', if_true]
      · intro op hop
        simp only [List.mem_cons] at hop
        rcases hop with h | h
        · subst h; constructor <;> omega
        · exact hbound op h
    · refine ⟨ops, ?_, hbound⟩
      simp only [genBitOps, hc, hops, Bool.false_eq_true, if_false]

/-- For equal lengths at least 2, `shuffle_pairs` succeeds and acts as one
in-bounds swap sequence applied to both slices. -/
theorem shuffle_pairs_some (f : Nat → Nat) (x y : List α)
    (hlen : x.length = y.length) (h2 : 2 ≤ x.length) :
    ∃ ops, shuffle_pairs f x y = some (applySwaps ops x, applySwaps ops y) ∧
      ∀ op ∈ ops, op.1 < x.length ∧ op.2 < x.length := by
  obtain ⟨ops, hops, hbound⟩ := genPairOps_sound f (x.length / 2)
    (List.range ((x.length - 1) / 2)) (by
      intro p hp
      rw [List.mem_range] at hp
      omega)
  refine ⟨ops, ?_, ?_⟩
  · simp only [shuffle_pairs, if_neg (by omega : ¬ x.length ≠ y.length),
      if_neg (by omega : ¬ x.length < 2), hops, Option.map_some', applySwapsBoth_eq]
  · intro op hop
    have := hbound op hop
    have : 2 * (x.length / 2) ≤ x.length := by omega
    constructor <;> [exact lt_of_lt_of_le (hbound op hop).1 this;
      exact lt_of_lt_of_le (hbound op hop).2 this]

/-- For equal even lengths, `shuffle_bits` succeeds and acts as one
in-bounds swap sequence applied to both slices. -/
theorem shuffle_bits_some (c : Nat → Bool) (x y : List α)
    (hlen : x.length = y.length) (heven : x.length % 2 = 0) :
    ∃ ops, shuffle_bits c x y = some (applySwaps ops x, applySwaps ops y) ∧
      ∀ op ∈ ops, op.1 < x.length ∧ op.2 < x.length := by
  obtain ⟨ops, hops, hbound⟩ := genBitOps_sound c x.length
    (List.range ((x.length + 1) / 2)) (by
      intro k hk
      rw [List.mem_range] at hk
      omega)
  refine ⟨ops, ?_, hbound⟩
  simp only [shuffle_bits, if_neg (by omega : ¬ x.length ≠ y.length), hops,
    Option.map_some', applySwapsBoth_eq]

theorem decryptCt_ct_rerandomise (ct : Ct) (k r : Rat) :
    decryptCt k (ct_rerandomise ct k r) = decryptCt k ct := by
  simp [decryptCt, ct_rerandomise, addCt, encryptCt]
  ring

theorem applySwaps_append (ops1 ops2 : List (Nat × Nat)) (l : List α) :
    applySwaps (ops1 ++ ops2) l = applySwaps ops2 (applySwaps ops1 l) := by
  simp [applySwaps, List.foldl_append]

theorem posMap_append (ops1 ops2 : List (Nat × Nat)) (i : Nat) :
    posMap (ops1 ++ ops2) i = posMap ops2 (posMap ops1 i) := by
  simp [posMap, List.foldl_append]

/-- Behaviour of `rerandomise` on equal-length lists, elementwise. -/
theorem rerandomise_getElem? (k : Rat) (rs : Nat → Rat) (x y : List Ct)
    (hlen : x.length = y.length) (j : Nat) (hj : j < x.length) :
    ((rerandomise k rs x y).1)[j]? = x[j]?.map (fun ct => ct_rerandomise ct k (rs (2 * j))) ∧
    ((rerandomise k rs x y).2)[j]? = y[j]?.map (fun ct => ct_rerandomise ct k (rs (2 * j + 1))) := by
  have hmin : min x.length y.length = x.length := by omega
  have hx : x[j]? = some x[j] := List.getElem?_eq_getElem hj
  have hy : y[j]? = some y[j] := List.getElem?_eq_getElem (by omega)
  have hgj : j < (List.range x.length).length := by simpa using hj
  constructor
  · rw [rerandomise]
    simp only [hmin]
    rw [List.getElem?_append_left (by simpa using hj), List.getElem?_map,
      List.getElem?_range hj, hx]
    simp [List.getD, List.getElem?_eq_getElem hj]
  · rw [rerandomise]
    simp only [hmin, hlen]
    rw [List.getElem?_append_left (by rw [List.length_map, List.length_range]; omega),
      List.getElem?_map, List.getElem?_range (by omega), hy]
    simp [List.getD, List.getElem?_eq_getElem (show j < y.length by omega)]

theorem length_rerandomise (k : Rat) (rs : Nat → Rat) (x y : List Ct)
    (hlen : x.length = y.length) :
    ((rerandomise k rs x y).1).length = x.length ∧
    ((rerandomise k rs x y).2).length = y.length := by
  have hmin : min x.length y.length = x.length := by omega
  constructor <;> simp [rerandomise, hmin, hlen]

end Remix

/-! ## Elementwise behaviour of `rerandomise` at every index -/

namespace Remix

/-- At any index whatsoever (also past the zipped prefix and past the end),
the first component of `rerandomise` decrypts as the input does. -/
theorem rerandomise_decrypt_fst (k : Rat) (rs : Nat → Rat) (x y : List Ct) (i : Nat) :
    ((rerandomise k rs x y).1)[i]?.map (decryptCt k) = x[i]?.map (decryptCt k) := by
  by_cases hi : i < min x.length y.length
  · rw [rerandomise]
    simp only
    rw [List.getElem?_append_left (by simpa using hi), List.getElem?_map,
      List.getElem?_range hi, Option.map_some', Option.map_some',
      decryptCt_ct_rerandomise]
    rw [List.getElem?_eq_getElem (by omega : i < x.length), Option.map_some']
    simp [List.getD, List.getElem?_eq_getElem (by omega : i < x.length)]
  · rw [rerandomise]
    simp only
    rw [List.getElem?_append_right (by simp only [List.length_map, List.length_range]; omega),
      List.getElem?_drop]
    congr 1
    congr 1
    simp only [List.length_map, List.length_range]
    omega

/-- Same for the second component. -/
theorem rerandomise_decrypt_snd (k : Rat) (rs : Nat → Rat) (x y : List Ct) (i : Nat) :
    ((rerandomise k rs x y).2)[i]?.map (decryptCt k) = y[i]?.map (decryptCt k) := by
  by_cases hi : i < min x.length y.length
  · rw [rerandomise]
    simp only
    rw [List.getElem?_append_left (by simpa using hi), List.getElem?_map,
      List.getElem?_range hi, Option.map_some', Option.map_some',
      decryptCt_ct_rerandomise]
    rw [List.getElem?_eq_getElem (by omega : i < y.length), Option.map_some']
    simp [List.getD, List.getElem?_eq_getElem (by omega : i < y.length)]
  · rw [rerandomise]
    simp only
    rw [List.getElem?_append_right (by simp only [List.length_map, List.length_range]; omega),
      List.getElem?_drop]
    congr 1
    congr 1
    simp only [List.length_map, List.length_range]
    omega

end Remix

/-! ## The collection loop of `request_all_shares` -/

namespace Rest

theorem collectLoop_eq (t1 : Nat) (rs : List (Option σ)) (acc : List σ) :
    collectLoop t1 rs acc = acc ++ (rs.filterMap id).take (t1 - acc.length) := by
  induction rs generalizing acc with
  | nil => simp [collectLoop]
  | cons r rest ih =>
    by_cases hstop : t1 ≤ acc.length
    · have : t1 - acc.length = 0 := by omega
      simp [collectLoop, if_pos hstop, this]
    · cases r with
      | some s =>
        rw [collectLoop, if_neg hstop, ih]
        have harith : t1 - acc.length = (t1 - (acc.length + 1)) + 1 := by omega
        simp only [List.filterMap_cons, id, List.append_assoc, List.length_append,
          List.length_cons, List.length_nil, List.cons_append, List.nil_append]
        rw [harith, List.take_succ_cons]
      | none =>
        rw [collectLoop, if_neg hstop, ih]
        simp [List.filterMap_cons]

theorem request_all_shares_eq (threshold : Nat) (resps : List (Option σ)) :
    request_all_shares threshold resps = (resps.filterMap id).take (threshold - 1) := by
  rw [request_all_shares, collectLoop_eq]
  simp

/-- C6: `request_all_shares` never returns more than `threshold - 1` shares:
it pushes exactly the successes of the completion-order result list, in
order, stopping as soon as `threshold - 1` are collected or no request
remains; each failed request is dropped without error; and when fewer than
`threshold - 1` successes exist at all (in particular when
`threshold - 1 > |peers|`), it returns exactly the collected successes. -/
theorem claim_C6 (threshold : Nat) (resps : List (Option σ)) :
    request_all_shares threshold resps = (resps.filterMap id).take (threshold - 1) ∧
    (request_all_shares threshold resps).length ≤ threshold - 1 ∧
    ((resps.filterMap id).length ≤ threshold - 1 →
      request_all_shares threshold resps = resps.filterMap id) := by
  refine ⟨request_all_shares_eq threshold resps, ?_, ?_⟩
  · rw [request_all_shares_eq]
    simp [List.length_take]
  · intro hle
    rw [request_all_shares_eq]
    exact List.take_of_length_le hle

/-- Witness for C6 at a concrete completion order: three successes, one
failure, `threshold = 3`. -/
theorem claim_C6_witness :
    request_all_shares 3 [some 10, none, some 20, some 30] = [10, 20] ∧
    (request_all_shares 3 [some 10, none, some 20, some 30]).length ≤ 2 := by
  obtain ⟨h1, h2, h3⟩ := claim_C6 3 [some 10, none, some 20, some 30]
  constructor
  · rw [h1]; decide
  · exact h2

/-- C7: with a configured `auth_token`, a request is routed exactly when it
carries the matching bearer token (missing or different bearer gives 401
Unauthorized); with no configured token every request is routed. -/
theorem claim_C7 (tok : String) (hdr : Option String) :
    (auth_middleware (some tok) hdr = .routed ↔ hdr = some tok) ∧
    (∀ anyHdr, auth_middleware none anyHdr = .routed) := by
  constructor
  · cases hdr with
    | none => simp [auth_middleware]
    | some h =>
      by_cases he : tok = h
      · subst he
        simp [auth_middleware]
      · simp only [auth_middleware, if_neg he]
        constructor
        · intro hcontra
          exact absurd hcontra (by simp)
        · intro hsome
          exact absurd (Option.some_inj.mp hsome).symm he
  · intro anyHdr
    rfl

/-- C3: the `/remix` handler produces a 400 response exactly when the two
codes have different lengths or an odd length; on valid lengths it either
returns the remixed codes (200) or panics (no response), never 400. -/
theorem claim_C3 (f : Nat → Nat) (c : Nat → Bool) (rs : Nat → Rat)
    (sharedKey : Rat) (codes : EncryptedCodes) :
    status (remix_handler f c rs sharedKey codes) = some 400 ↔
      codes.x_code.length ≠ codes.y_code.length ∨ codes.x_code.length % 2 = 1 := by
  rw [remix_handler, Crypto.remix]
  by_cases hcond : codes.x_code.length ≠ codes.y_code.length ∨ codes.x_code.length % 2 = 1
  · rw [if_pos hcond]
    simp [status, hcond]
  · rw [if_neg hcond]
    cases hr : Remix.remix f c rs (codes.enc_key.getD sharedKey) codes.x_code codes.y_code with
    | none => simp [status, hcond]
    | some ab => simp [status, hcond]

end Rest

/-- C4: rerandomisation is plaintext-preserving: `ct_rerandomise` is
literally `ct + encrypt(pk, 0)` and decrypts to the same plaintext, and the
slice-level `rerandomise` preserves the decryption of both sequences at
every position. -/
theorem claim_C4 (k : Rat) (rs : Nat → Rat) (x y : List Ct) :
    (∀ ct r, Remix.ct_rerandomise ct k r = addCt ct (encryptCt k 0 r) ∧
      decryptCt k (Remix.ct_rerandomise ct k r) = decryptCt k ct) ∧
    (∀ i : Nat,
      ((Remix.rerandomise k rs x y).1)[i]?.map (decryptCt k) = x[i]?.map (decryptCt k) ∧
      ((Remix.rerandomise k rs x y).2)[i]?.map (decryptCt k) = y[i]?.map (decryptCt k)) := by
  constructor
  · intro ct r
    exact ⟨rfl, Remix.decryptCt_ct_rerandomise ct k r⟩
  · intro i
    exact ⟨Remix.rerandomise_decrypt_fst k rs x y i, Remix.rerandomise_decrypt_snd k rs x y i⟩

/-- C10: on two empty input slices (equal and even length, so they pass
`crypto::remix`'s `InvalidLength` validation) `shuffle_pairs` panics on the
underflowing `x_cipher.len() - STEP`, so `remix` and all its callers — the
crypto-layer `remix`, the `/remix` handler and the `/hamming` handler —
panic instead of producing a remixed result. -/
theorem claim_C10 (f : Nat → Nat) (c : Nat → Bool) (rs : Nat → Rat) (k sharedKey : Rat)
    (ks : Crypto.KeySet) (selfIdx : Nat) (peers : List Rest.PeerRemix)
    (xResps yResps : List (Option Crypto.DecryptionShare)) :
    Remix.shuffle_pairs f ([] : List Ct) [] = none ∧
    Remix.remix f c rs k [] [] = none ∧
    Crypto.remix f c rs k [] [] = .panicked ∧
    Rest.remix_handler f c rs sharedKey ⟨[], [], none⟩ = .panicked ∧
    Rest.hamming_distance f c rs ks selfIdx peers xResps yResps ⟨[], [], none⟩ = .panicked := by
  refine ⟨rfl, rfl, ?_, ?_, ?_⟩ <;> rfl

namespace Remix

/-- On equal, even, nonzero lengths `remix` succeeds and is one common
in-bounds swap sequence applied to both slices followed by the elementwise
rerandomisation. -/
theorem remix_some (f : Nat → Nat) (c : Nat → Bool) (rs : Nat → Rat) (k : Rat)
    (x y : List Ct) (hlen : x.length = y.length) (heven : x.length % 2 = 0)
    (hne : x ≠ []) :
    ∃ ops : List (Nat × Nat),
      (∀ op ∈ ops, op.1 < x.length ∧ op.2 < x.length) ∧
      remix f c rs k x y = some (rerandomise k rs (applySwaps ops x) (applySwaps ops y)) := by
  have h2 : 2 ≤ x.length := by
    have : x.length ≠ 0 := fun h0 => hne (List.eq_nil_of_length_eq_zero h0)
    omega
  obtain ⟨ops1, hsp, hb1⟩ := shuffle_pairs_some f x y hlen h2
  have hlx1 : (applySwaps ops1 x).length = x.length := length_applySwaps ops1 x
  have hly1 : (applySwaps ops1 y).length = x.length := by
    rw [length_applySwaps]; omega
  obtain ⟨ops2, hsb, hb2⟩ := shuffle_bits_some c (applySwaps ops1 x) (applySwaps ops1 y)
    (by omega) (by omega)
  refine ⟨ops1 ++ ops2, ?_, ?_⟩
  · intro op hop
    rcases List.mem_append.mp hop with h | h
    · exact hb1 op h
    · have := hb2 op h
      omega
  · rw [remix, if_neg (by omega : ¬ x.length ≠ y.length), hsp]
    simp only [Option.bind_eq_bind, Option.some_bind, hsb, applySwaps_append]
    rfl

end Remix

/-- C1 counterexample: the claim quantifies over all equal-length,
even-length sequences, but at the (even-length) empty input `remix` panics
— there are no output sequences at all, so the pair-preservation property
fails there.  (Amended claim: `claim_C1` below, for nonempty inputs.) -/
theorem claim_C1_counterexample :
    ¬ ∃ xr yr, Remix.remix (fun _ => 0) (fun _ => false) (fun _ => 0) 0
      ([] : List Ct) [] = some (xr, yr) := by
  intro ⟨xr, yr, h⟩
  exact Option.noConfusion h

/-- C1 (amended to nonempty inputs): for equal-length, even-length,
nonempty `x, y` and any key, `remix` succeeds, preserves the lengths, and
applies one common position permutation to both sequences followed by a
plaintext-preserving rerandomisation: for every index `i` the decrypted
pair `(x[i], y[i])` appears at some common position `j` of the outputs. -/
theorem claim_C1 (f : Nat → Nat) (c : Nat → Bool) (rs : Nat → Rat) (k : Rat)
    (x y : List Ct) (hlen : x.length = y.length) (heven : x.length % 2 = 0)
    (hne : x ≠ []) :
    ∃ xr yr, Remix.remix f c rs k x y = some (xr, yr) ∧
      xr.length = x.length ∧ yr.length = y.length ∧
      ∀ i < x.length, ∃ j < x.length,
        xr[j]?.map (decryptCt k) = x[i]?.map (decryptCt k) ∧
        yr[j]?.map (decryptCt k) = y[i]?.map (decryptCt k) := by
  obtain ⟨ops, hbound, heq⟩ := Remix.remix_some f c rs k x y hlen heven hne
  set xs := applySwaps ops x with hxs
  set ys := applySwaps ops y with hys
  have hlxs : xs.length = x.length := length_applySwaps ops x
  have hlys : ys.length = y.length := length_applySwaps ops y
  refine ⟨(Remix.rerandomise k rs xs ys).1, (Remix.rerandomise k rs xs ys).2, by rw [heq], ?_, ?_, ?_⟩
  · have := (Remix.length_rerandomise k rs xs ys (by omega)).1
    omega
  · have := (Remix.length_rerandomise k rs xs ys (by omega)).2
    omega
  · intro i hi
    obtain ⟨hjx, hgx⟩ := applySwaps_getElem? ops x i hbound hi
    obtain ⟨hjy, hgy⟩ := applySwaps_getElem? ops y i
      (by intro op hop; have := hbound op hop; omega) (by omega)
    refine ⟨posMap ops i, hjx, ?_, ?_⟩
    · rw [Remix.rerandomise_decrypt_fst, hgx]
    · rw [Remix.rerandomise_decrypt_snd, hgy]

/-- Witness for C1 at a concrete input: two ciphertext pairs under key 1. -/
theorem claim_C1_witness :
    (([⟨0, 0⟩, ⟨0, 1⟩] : List Ct).length = ([⟨0, 0⟩, ⟨0, 1⟩] : List Ct).length ∧
      ([⟨0, 0⟩, ⟨0, 1⟩] : List Ct).length % 2 = 0 ∧ ([⟨0, 0⟩, ⟨0, 1⟩] : List Ct) ≠ []) ∧
    (∃ xr yr, Remix.remix (fun _ => 0) (fun _ => false) (fun _ => 0) 1
        [⟨0, 0⟩, ⟨0, 1⟩] [⟨0, 0⟩, ⟨0, 1⟩] = some (xr, yr) ∧
      xr.length = ([⟨0, 0⟩, ⟨0, 1⟩] : List Ct).length ∧
      yr.length = ([⟨0, 0⟩, ⟨0, 1⟩] : List Ct).length ∧
      ∀ i < ([⟨0, 0⟩, ⟨0, 1⟩] : List Ct).length, ∃ j < ([⟨0, 0⟩, ⟨0, 1⟩] : List Ct).length,
        xr[j]?.map (decryptCt 1) = (([⟨0, 0⟩, ⟨0, 1⟩] : List Ct))[i]?.map (decryptCt 1) ∧
        yr[j]?.map (decryptCt 1) = (([⟨0, 0⟩, ⟨0, 1⟩] : List Ct))[i]?.map (decryptCt 1)) :=
  ⟨⟨rfl, by decide, by decide⟩,
    claim_C1 (fun _ => 0) (fun _ => false) (fun _ => 0) 1
      [⟨0, 0⟩, ⟨0, 1⟩] [⟨0, 0⟩, ⟨0, 1⟩] rfl (by decide) (by decide)⟩

/-! ## C8: `shuffle_pairs` against the spec's Fisher-Yates wording -/

theorem lswap_getElem?_ne (l : List α) {a b m : Nat} (hma : m ≠ a) (hmb : m ≠ b) :
    (lswap l a b)[m]? = l[m]? := by
  unfold lswap
  cases l[a]? with
  | none => rfl
  | some u =>
    cases l[b]? with
    | none => rfl
    | some v =>
      simp only
      rw [List.getElem?_set_ne (fun h => hmb h.symm), List.getElem?_set_ne (fun h => hma h.symm)]

/-- A swap sequence that never touches position `m` leaves the element at
`m` where it is. -/
theorem applySwaps_getElem?_of_ne (ops : List (Nat × Nat)) (l : List α) (m : Nat)
    (hops : ∀ op ∈ ops, op.1 ≠ m ∧ op.2 ≠ m) :
    (applySwaps ops l)[m]? = l[m]? := by
  induction ops generalizing l with
  | nil => rfl
  | cons op rest ih =>
    have hop := hops op (List.mem_cons_self op rest)
    simp only [applySwaps, List.foldl_cons] at ih ⊢
    rw [ih (lswap l op.1 op.2) (fun o ho => hops o (List.mem_cons_of_mem op ho)),
      lswap_getElem?_ne l (fun h => hop.1 h.symm) (fun h => hop.2 h.symm)]

namespace SpecModel

theorem fisherYatesPairOps_append (f : Nat → Nat) (tp : Nat) (ps qs : List Nat) :
    fisherYatesPairOps f tp (ps ++ qs) =
      fisherYatesPairOps f tp ps ++ fisherYatesPairOps f tp qs := by
  induction ps with
  | nil => rfl
  | cons p ps ih => simp [fisherYatesPairOps, ih]

end SpecModel

namespace Remix

/-- On in-range pair indices the source loop generates exactly the swaps of
the spec's Fisher-Yates step. -/
theorem genPairOps_eq_fisherYates (f : Nat → Nat) (tp : Nat) (ps : List Nat)
    (hps : ∀ p ∈ ps, p < tp) :
    genPairOps f tp ps = some (SpecModel.fisherYatesPairOps f tp ps) := by
  induction ps with
  | nil => rfl
  | cons p ps ih =>
    have hp : p < tp := hps p (List.mem_cons_self p ps)
    rw [genPairOps, if_neg (by omega : ¬ tp ≤ p),
      ih (fun q hq => hps q (List.mem_cons_of_mem p hq)), Option.map_some']
    rfl

end Remix

theorem applySwapsBoth_append (ops1 ops2 : List (Nat × Nat)) (x y : List α) :
    applySwapsBoth (ops1 ++ ops2) x y =
      applySwapsBoth ops2 (applySwapsBoth ops1 x y).1 (applySwapsBoth ops1 x y).2 := by
  simp only [applySwapsBoth_eq, Remix.applySwaps_append]

/-- C8 counterexample: at the odd length 1, the source `shuffle_pairs`
panics on the underflowing `x_cipher.len() - STEP` instead of leaving the
lone element unmoved; the spec's Fisher-Yates over the empty pair range
would leave the input untouched. -/
theorem claim_C8_counterexample :
    Remix.shuffle_pairs (fun _ => 0) [(⟨0, 0⟩ : Ct)] [(⟨0, 0⟩ : Ct)] = none ∧
    SpecModel.shuffle_pairs (fun _ => 0) [(⟨0, 0⟩ : Ct)] [(⟨0, 0⟩ : Ct)]
      = ([⟨0, 0⟩], [⟨0, 0⟩]) :=
  ⟨rfl, rfl⟩

/-- C8 (amended to lengths at least 2): for equal lengths `≥ 2` the source
`shuffle_pairs` computes exactly the spec's Fisher-Yates permutation over
pair indices `[0, n/2)` under the same choice stream (the source merely
skips the final forced-identity step at pair index `n/2 - 1` for even
`n`), and for odd lengths the final lone element is left unmoved.  For
lengths 0 and 1 the source function instead panics
(`claim_C8_counterexample`). -/
theorem claim_C8 (f : Nat → Nat) (x y : List α)
    (hlen : x.length = y.length) (h2 : 2 ≤ x.length) :
    Remix.shuffle_pairs f x y = some (SpecModel.shuffle_pairs f x y) ∧
    (x.length % 2 = 1 →
      (SpecModel.shuffle_pairs f x y).1[x.length - 1]? = x[x.length - 1]? ∧
      (SpecModel.shuffle_pairs f x y).2[x.length - 1]? = y[x.length - 1]?) := by
  constructor
  · rw [Remix.shuffle_pairs, if_neg (by omega : ¬ x.length ≠ y.length),
      if_neg (by omega : ¬ x.length < 2)]
    by_cases hodd : x.length % 2 = 1
    · have hiter : (x.length - 1) / 2 = x.length / 2 := by omega
      rw [hiter, Remix.genPairOps_eq_fisherYates f (x.length / 2) _
        (fun p hp => List.mem_range.mp hp), Option.map_some']
      rfl
    · have hiter : x.length / 2 = ((x.length - 1) / 2) + 1 := by omega
      rw [Remix.genPairOps_eq_fisherYates f (x.length / 2) _
        (fun p hp => by have := List.mem_range.mp hp; omega), Option.map_some']
      rw [SpecModel.shuffle_pairs, hiter, List.range_succ,
        SpecModel.fisherYatesPairOps_append, applySwapsBoth_append]
      have hq : (x.length - 1) / 2 + f ((x.length - 1) / 2) %
          ((x.length - 1) / 2 + 1 - (x.length - 1) / 2) = (x.length - 1) / 2 := by
        have h1 : (x.length - 1) / 2 + 1 - (x.length - 1) / 2 = 1 := by omega
        rw [h1, Nat.mod_one]
        omega
      rw [show SpecModel.fisherYatesPairOps f ((x.length - 1) / 2 + 1) [(x.length - 1) / 2] =
          [(2 * ((x.length - 1) / 2), 2 * ((x.length - 1) / 2)),
           (2 * ((x.length - 1) / 2) + 1, 2 * ((x.length - 1) / 2) + 1)] from by
        simp [SpecModel.fisherYatesPairOps, hq, Nat.mod_one]]
      simp [applySwapsBoth, lswap_self]
  · intro hodd
    have hrange : ∀ p ∈ List.range (x.length / 2), p < x.length / 2 :=
      fun p hp => List.mem_range.mp hp
    obtain ⟨ops0, hops0, hbound⟩ := Remix.genPairOps_sound f (x.length / 2)
      (List.range (x.length / 2)) hrange
    have heqops := Remix.genPairOps_eq_fisherYates f (x.length / 2)
      (List.range (x.length / 2)) hrange
    rw [hops0] at heqops
    have hfy : SpecModel.fisherYatesPairOps f (x.length / 2)
        (List.range (x.length / 2)) = ops0 := (Option.some.inj heqops).symm
    have hne : ∀ op ∈ SpecModel.fisherYatesPairOps f (x.length / 2)
        (List.range (x.length / 2)), op.1 ≠ x.length - 1 ∧ op.2 ≠ x.length - 1 := by
      intro op hop
      rw [hfy] at hop
      have := hbound op hop
      omega
    rw [SpecModel.shuffle_pairs, applySwapsBoth_eq]
    exact ⟨applySwaps_getElem?_of_ne _ x _ hne,
      applySwaps_getElem?_of_ne _ y _ hne⟩

/-- Witness for C8 at the odd length 3. -/
theorem claim_C8_witness :
    (([10, 20, 30] : List Nat).length = ([40, 50, 60] : List Nat).length ∧
      2 ≤ ([10, 20, 30] : List Nat).length) ∧
    (Remix.shuffle_pairs (fun _ => 7) ([10, 20, 30] : List Nat) [40, 50, 60] =
        some (SpecModel.shuffle_pairs (fun _ => 7) [10, 20, 30] [40, 50, 60]) ∧
      (([10, 20, 30] : List Nat).length % 2 = 1 →
        (SpecModel.shuffle_pairs (fun _ => 7) ([10, 20, 30] : List Nat) [40, 50, 60]).1[2]? =
          ([10, 20, 30] : List Nat)[2]? ∧
        (SpecModel.shuffle_pairs (fun _ => 7) ([10, 20, 30] : List Nat) [40, 50, 60]).2[2]? =
          ([40, 50, 60] : List Nat)[2]?)) :=
  ⟨⟨rfl, by decide⟩, claim_C8 (fun _ => 7) [10, 20, 30] [40, 50, 60] rfl (by decide)⟩

/-! ## C5: the peer-remix chain of `/hamming` tolerates peer failures -/

namespace Rest

theorem remixChain_append (before after : List PeerRemix) (cs : Codes) :
    remixChain (before ++ after) cs = remixChain after (remixChain before cs) := by
  simp [remixChain, List.foldl_append]

end Rest

/-- C5: if the `/remix` call to peer `p` fails at its turn in the chain
(whatever the current codes are at that point), the coordinator keeps the
codes exactly as they were before that call and proceeds with the
remaining peers — the whole `/hamming` computation is the same as if `p`
were absent, so a peer remix failure never makes the request fail. -/
theorem claim_C5 (f : Nat → Nat) (c : Nat → Bool) (rs : Nat → Rat)
    (ks : Crypto.KeySet) (selfIdx : Nat)
    (before after : List Rest.PeerRemix) (p : Rest.PeerRemix)
    (xResps yResps : List (Option Crypto.DecryptionShare))
    (codes : Rest.EncryptedCodes) (x y : List Ct)
    (hok : Crypto.remix f c rs (Crypto.sharedKey ks) codes.x_code codes.y_code = .ok x y)
    (hfail : p (Rest.remixChain before (x, y)) = none) :
    Rest.remixChain (before ++ p :: after) (x, y) =
      Rest.remixChain (before ++ after) (x, y) ∧
    Rest.hamming_distance f c rs ks selfIdx (before ++ p :: after) xResps yResps codes =
      Rest.hamming_distance f c rs ks selfIdx (before ++ after) xResps yResps codes := by
  have hchain : Rest.remixChain (before ++ p :: after) (x, y) =
      Rest.remixChain (before ++ after) (x, y) := by
    rw [Rest.remixChain_append, Rest.remixChain_append]
    show Rest.remixChain after
        ((p (Rest.remixChain before (x, y))).getD (Rest.remixChain before (x, y))) = _
    rw [hfail]
    rfl
  refine ⟨hchain, ?_⟩
  rw [Rest.hamming_distance, Rest.hamming_distance, hok]
  simp only [hchain]

/-- Witness for C5: a 3-node key set, two identity-remixed ciphertexts, one
peer that always fails. -/
theorem claim_C5_witness :
    (Crypto.remix (fun _ => 0) (fun _ => false) (fun _ => 0)
        (Crypto.sharedKey ⟨3, 2, [5, 3]⟩)
        ([encryptCt 5 1 2, encryptCt 5 0 7]) [encryptCt 5 1 2, encryptCt 5 0 7] =
      .ok [encryptCt 5 1 2, encryptCt 5 0 7] [encryptCt 5 1 2, encryptCt 5 0 7]) ∧
    (Rest.remixChain [fun _ => none]
        ([encryptCt 5 1 2, encryptCt 5 0 7], [encryptCt 5 1 2, encryptCt 5 0 7]) =
      Rest.remixChain []
        ([encryptCt 5 1 2, encryptCt 5 0 7], [encryptCt 5 1 2, encryptCt 5 0 7]) ∧
    Rest.hamming_distance (fun _ => 0) (fun _ => false) (fun _ => 0) ⟨3, 2, [5, 3]⟩ 0
        [fun _ => none] [] []
        ⟨[encryptCt 5 1 2, encryptCt 5 0 7], [encryptCt 5 1 2, encryptCt 5 0 7], none⟩ =
      Rest.hamming_distance (fun _ => 0) (fun _ => false) (fun _ => 0) ⟨3, 2, [5, 3]⟩ 0
        [] [] []
        ⟨[encryptCt 5 1 2, encryptCt 5 0 7], [encryptCt 5 1 2, encryptCt 5 0 7], none⟩) :=
  ⟨by
    simp [Crypto.remix, Remix.remix, Remix.shuffle_pairs, Remix.shuffle_bits,
      Remix.genPairOps, Remix.genBitOps, Remix.rerandomise, Remix.ct_rerandomise,
      applySwapsBoth, addCt, encryptCt, Crypto.sharedKey, Crypto.polyEval,
      List.range_succ],
    claim_C5 (fun _ => 0) (fun _ => false) (fun _ => 0) ⟨3, 2, [5, 3]⟩ 0
      [] [] (fun _ => none) [] []
      ⟨[encryptCt 5 1 2, encryptCt 5 0 7], [encryptCt 5 1 2, encryptCt 5 0 7], none⟩
      [encryptCt 5 1 2, encryptCt 5 0 7] [encryptCt 5 1 2, encryptCt 5 0 7]
      (by
        simp [Crypto.remix, Remix.remix, Remix.shuffle_pairs, Remix.shuffle_bits,
          Remix.genPairOps, Remix.genBitOps, Remix.rerandomise, Remix.ct_rerandomise,
          applySwapsBoth, addCt, encryptCt, Crypto.sharedKey, Crypto.polyEval,
          List.range_succ])
      rfl⟩


/-! ## C9: `crypto::encrypt` encrypts bit `i` at position `i` -/

namespace Crypto

theorem chunksOf_nil (n : Nat) : chunksOf n ([] : List α) = [] := by
  rw [chunksOf]
  simp

theorem chunksOf_cons (n : Nat) (l : List α) (hne : l ≠ []) (hn : 0 < n) :
    chunksOf n l = l.take n :: chunksOf n (l.drop n) := by
  rw [chunksOf, if_neg]
  simp only [not_or, List.isEmpty_iff]
  exact ⟨hne, by omega⟩

/-- Bit `off` of the packed word is element `off` of the chunk. -/
theorem packChunk_bit (t : List Bool) (off : Nat) (hoff : off < t.length) :
    (packChunk t >>> off) &&& 1 = if t.getD off false then 1 else 0 := by
  rw [Nat.and_one_is_mod, Nat.shiftRight_eq_div_pow]
  induction t generalizing off with
  | nil => simp at hoff
  | cons b t ih =>
    cases off with
    | zero =>
      simp only [pow_zero, Nat.div_one, packChunk, List.getD_cons_zero]
      cases b <;> simp [Nat.add_mul_mod_self_left]
    | succ off =>
      have hofft : off < t.length := by simpa using hoff
      rw [packChunk, List.getD_cons_succ]
      rw [show (2 : Nat) ^ (off + 1) = 2 * 2 ^ off by ring, ← Nat.div_div_eq_div_mul]
      have hdiv : ((if b then 1 else 0) + 2 * packChunk t) / 2 = packChunk t := by
        cases b <;> simp [Nat.add_mul_div_left]
      rw [hdiv, ih off hofft]

/-- One step of the chunk iteration of `encrypt`: the first backing word
contributes the first `min 64 len` bits, the rest is `encrypt` of the
remaining bits with the scalar stream shifted by 64. -/
theorem encrypt_chunk_step (k : Rat) (rs : Nat → Rat) (bits : List Bool) (hne : bits ≠ []) :
    encrypt k rs bits =
      (List.range (min 64 bits.length)).map
        (fun off => encryptCt k
          (((packChunk (bits.take 64) >>> off) &&& 1 : Nat) : Rat) (rs off)) ++
      encrypt k (fun i => rs (64 + i)) (bits.drop 64) := by
  conv_lhs => rw [encrypt]
  rw [chunksOf_cons 64 bits hne (by omega), List.enum_cons', List.flatMap_cons,
    List.flatMap_map]
  congr 1
  · simp only [Nat.zero_mul, Nat.zero_add, Nat.sub_zero]
  · by_cases hlen64 : bits.length ≤ 64
    · have hdrop : bits.drop 64 = [] := List.drop_eq_nil_of_le (by omega)
      rw [hdrop, chunksOf_nil]
      simp [encrypt, chunksOf_nil]
    · push_neg at hlen64
      rw [encrypt]
      apply List.flatMap_congr
      intro p hp
      simp only [Prod.map_fst, Prod.map_snd, id_eq]
      have harith : min ((p.1 + 1) * 64 + 64) bits.length - (p.1 + 1) * 64 =
          min (p.1 * 64 + 64) (bits.drop 64).length - p.1 * 64 := by
        rw [List.length_drop]
        omega
      rw [harith]
      apply List.map_congr_left
      intro off hoff
      have hshift : (p.1 + 1) * 64 + off = 64 + (p.1 * 64 + off) := by ring
      rw [hshift]

/-- Fact: `crypto::encrypt` encrypts exactly the input bits, in input order, with
the fresh scalar of position `i` drawn for position `i`. -/
theorem encrypt_eq_map (k : Rat) :
    ∀ (fuel : Nat) (bits : List Bool) (rs : Nat → Rat), bits.length ≤ fuel →
      encrypt k rs bits = (List.range bits.length).map
        (fun i => encryptCt k (if bits.getD i false then 1 else 0) (rs i)) := by
  intro fuel
  induction fuel with
  | zero =>
    intro bits rs hlen
    have : bits = [] := List.eq_nil_of_length_eq_zero (by omega)
    subst this
    simp [encrypt, chunksOf_nil]
  | succ N ih =>
    intro bits rs hlen
    rcases List.eq_nil_or_concat bits with hnil | _
    case inl =>
      subst hnil
      simp [encrypt, chunksOf_nil]
    case inr =>
    have hne : bits ≠ [] := by
      rename_i hcc
      obtain ⟨l, a, hla⟩ := hcc
      subst hla
      simp
    have hpos : 0 < bits.length := List.length_pos.mpr hne
    rw [encrypt_chunk_step k rs bits hne]
    have hhead : (List.range (min 64 bits.length)).map
        (fun off => encryptCt k
          (((packChunk (bits.take 64) >>> off) &&& 1 : Nat) : Rat) (rs off)) =
        (List.range (min 64 bits.length)).map
          (fun i => encryptCt k (if bits.getD i false then 1 else 0) (rs i)) := by
      apply List.map_congr_left
      intro off hoff
      have hoff' : off < min 64 bits.length := List.mem_range.mp hoff
      have hofftake : off < (bits.take 64).length := by
        rw [List.length_take]
        omega
      rw [packChunk_bit (bits.take 64) off hofftake]
      have hgetD : (bits.take 64).getD off false = bits.getD off false := by
        unfold List.getD
        rw [List.get?_eq_getElem?, List.get?_eq_getElem?,
          List.getElem?_take_of_lt (by omega : off < 64)]
      rw [hgetD]
      rcases bits.getD off false <;> simp
    rw [hhead, ih (bits.drop 64) (fun i => rs (64 + i)) (by rw [List.length_drop]; omega)]
    have hsplit : bits.length = min 64 bits.length + (bits.length - 64) := by omega
    conv_rhs => rw [hsplit]
    rw [List.range_add, List.map_append, List.map_map, List.length_drop]
    congr 1
    apply List.map_congr_left
    intro i hi
    have hi' : i < bits.length - 64 := List.mem_range.mp hi
    simp only [Function.comp]
    have hmin : min 64 bits.length = 64 := by omega
    have hgetD : (bits.drop 64).getD i false = bits.getD (64 + i) false := by
      unfold List.getD
      rw [List.get?_eq_getElem?, List.get?_eq_getElem?, List.getElem?_drop]
    rw [hmin, hgetD]

end Crypto

/-- C9: `crypto::encrypt` returns exactly `len(bits)` ciphertexts, and the
`i`-th one encrypts bit `i` of the input (plaintext `1` for a set bit, `0`
otherwise) with a fresh scalar per bit — in input order, including when
`len(bits)` is not a multiple of the 64-bit backing chunk, where the last
partial chunk contributes only its remaining `len(bits) mod 64` bits. -/
theorem claim_C9 (k : Rat) (rs : Nat → Rat) (bits : List Bool) :
    (Crypto.encrypt k rs bits).length = bits.length ∧
    Crypto.encrypt k rs bits = bits.enum.map
      (fun p => encryptCt k (if p.2 then 1 else 0) (rs p.1)) := by
  have hmain := Crypto.encrypt_eq_map k bits.length bits rs (le_refl _)
  have henum : bits.enum.map (fun p => encryptCt k (if p.2 then 1 else 0) (rs p.1))
      = (List.range bits.length).map
        (fun i => encryptCt k (if bits.getD i false then 1 else 0) (rs i)) := by
    apply List.ext_getElem?
    intro n
    rw [List.getElem?_map, List.getElem?_map, List.enum_eq_enumFrom,
      List.getElem?_enumFrom]
    by_cases hn : n < bits.length
    · rw [List.getElem?_range hn, List.getElem?_eq_getElem hn]
      simp only [Option.map_some', Nat.zero_add, Option.some_inj]
      have : bits.getD n false = bits[n] := by
        unfold List.getD
        rw [List.get?_eq_getElem?, List.getElem?_eq_getElem hn]
        rfl
      rw [this]
    · rw [List.getElem?_eq_none (by omega), List.getElem?_eq_none (by simpa using hn)]
      rfl
  refine ⟨?_, by rw [hmain, henum]⟩
  rw [hmain]
  simp

/-! ## C2: threshold reconstruction (Shamir/Lagrange over the exponent field) -/

namespace Crypto

theorem polyEval_eq_sum (coeffs : List Rat) (x : Rat) :
    polyEval coeffs x = ∑ i : Fin coeffs.length, coeffs.get i * x ^ (i : Nat) := by
  induction coeffs with
  | nil => simp [polyEval]
  | cons a t ih =>
    show a + x * polyEval t x = ∑ i : Fin (t.length + 1), (a :: t).get i * x ^ (i : Nat)
    rw [ih, Fin.sum_univ_succ]
    simp only [List.get_cons_zero, Fin.val_zero, pow_zero, mul_one,
      List.get_cons_succ, Fin.val_succ]
    rw [Finset.mul_sum]
    congr 1
    apply Finset.sum_congr rfl
    intro i _
    have hgs : (a :: t).get i.succ = t.get i := rfl
    rw [hgs]
    ring

/-- Lagrange reconstruction at `0`: for any node set with at least as many
nodes as the polynomial has coefficients, the weighted sum of the values at
the nodes recovers the value at `0` (the shared secret). -/
theorem lagrange_reconstruct (coeffs : List Rat) (S : Finset Nat)
    (hdeg : coeffs.length ≤ S.card) :
    ∑ i ∈ S, (∏ j ∈ S.erase i, node j / (node j - node i)) * polyEval coeffs (node i)
      = polyEval coeffs 0 := by
  classical
  have hnodeinj : ∀ a b : Nat, node a = node b → a = b := by
    intro a b hab
    have h1 : (a : Rat) + 1 = (b : Rat) + 1 := hab
    have : (a : Rat) = b := by linarith
    exact_mod_cast this
  have hinj : Set.InjOn node (S : Set Nat) := fun a _ b _ hab => hnodeinj a b hab
  have hmain : ∀ p : Polynomial Rat, p.degree < S.card →
      ∑ i ∈ S, (∏ j ∈ S.erase i, node j / (node j - node i)) * p.eval (node i)
        = p.eval 0 := by
    intro p hdegp
    have hinterp := Lagrange.eq_interpolate (v := node) hinj hdegp
    have h0 := congrArg (Polynomial.eval 0) hinterp
    rw [Lagrange.interpolate_apply, Polynomial.eval_finset_sum] at h0
    have hbasis : ∀ i ∈ S, (Lagrange.basis S node i).eval 0
        = ∏ j ∈ S.erase i, node j / (node j - node i) := by
      intro i hi
      rw [Lagrange.basis, Polynomial.eval_prod]
      apply Finset.prod_congr rfl
      intro j hj
      have hji : j ≠ i := (Finset.mem_erase.mp hj).1
      have hne : node i ≠ node j := fun h => hji (hnodeinj j i h.symm)
      rw [Lagrange.basisDivisor]
      simp only [Polynomial.eval_mul, Polynomial.eval_C, Polynomial.eval_sub,
        Polynomial.eval_X]
      have h1 : node i - node j ≠ 0 := sub_ne_zero.mpr hne
      have h2 : node j - node i ≠ 0 := sub_ne_zero.mpr (Ne.symm hne)
      field_simp
      ring
    rw [h0]
    apply Finset.sum_congr rfl
    intro i hi
    rw [Polynomial.eval_mul, Polynomial.eval_C, hbasis i hi]
    ring
  have heval : ∀ z : Rat, polyEval coeffs z = Polynomial.eval z
      (∑ i : Fin coeffs.length, Polynomial.C (coeffs.get i) * Polynomial.X ^ (i : Nat)) := by
    intro z
    rw [polyEval_eq_sum]
    rw [Polynomial.eval_finset_sum]
    apply Finset.sum_congr rfl
    intro i _
    simp
  have hdeg' : (∑ i : Fin coeffs.length,
      Polynomial.C (coeffs.get i) * Polynomial.X ^ (i : Nat)).degree
        < (S.card : WithBot Nat) := by
    refine lt_of_lt_of_le (Polynomial.degree_sum_fin_lt _) ?_
    exact_mod_cast hdeg
  have := hmain _ hdeg'
  rw [heval 0, ← this]
  apply Finset.sum_congr rfl
  intro i hi
  rw [heval (node i)]

end Crypto

namespace Crypto

/-- Fact: `combine_shares` on the honest partial decryptions
`(i, s_i * r)` of `t` (or more) distinct participants recovers `k * r`,
the combined decryption element of a ciphertext with random exponent `r`
under the shared key `k`. -/
theorem combine_shares_map_correct (ks : KeySet) (idxs : List Nat) (r : Rat)
    (hnd : idxs.Nodup) (ht : ks.t ≤ idxs.length) (hcoef : ks.coeffs.length = ks.t) :
    combine_shares ks.t (idxs.map fun i => (i, secretShare ks i * r))
      = some (sharedKey ks * r) := by
  classical
  rw [combine_shares, if_neg (by rw [List.length_map]; omega)]
  congr 1
  have hfst : (idxs.map fun i => (i, secretShare ks i * r)).map Prod.fst = idxs := by
    rw [List.map_map]
    have hcomp : (Prod.fst ∘ fun i : Nat => (i, secretShare ks i * r)) = id := rfl
    rw [hcomp, List.map_id]
  rw [hfst, List.map_map]
  have hmapped : ((fun p : Nat × Rat => lagCoeff idxs p.1 * p.2) ∘
      fun i => (i, secretShare ks i * r)) =
      fun i => lagCoeff idxs i * (secretShare ks i * r) := rfl
  rw [hmapped]
  rw [← List.sum_toFinset _ hnd]
  have hlag : ∀ i, lagCoeff idxs i
      = ∏ j ∈ idxs.toFinset.erase i, node j / (node j - node i) := by
    intro i
    rw [lagCoeff, ← List.prod_toFinset _ (hnd.filter _), List.toFinset_filter]
    congr 1
    rw [← Finset.filter_ne']
    apply Finset.filter_congr
    intro j _
    simp
  have hsum : ∑ i ∈ idxs.toFinset, lagCoeff idxs i * (secretShare ks i * r)
      = (∑ i ∈ idxs.toFinset,
          (∏ j ∈ idxs.toFinset.erase i, node j / (node j - node i)) * polyEval ks.coeffs (node i)) * r := by
    rw [Finset.sum_mul]
    apply Finset.sum_congr rfl
    intro i _
    rw [hlag i, secretShare]
    ring
  rw [hsum, lagrange_reconstruct ks.coeffs idxs.toFinset
    (by rw [List.toFinset_card_of_nodup hnd]; omega)]
  rfl

end Crypto

theorem filterMap_eq_map_of_some {α β : Type} (g : α → Option β) (h : α → β)
    (hg : ∀ a, g a = some (h a)) : ∀ l : List α, l.filterMap g = l.map h := by
  intro l
  induction l with
  | nil => rfl
  | cons a l ih => rw [List.filterMap_cons, hg a, List.map_cons, ih]

theorem exceptMapM_ok {α β : Type} (f : α → Except String β) (g : α → β) :
    ∀ l : List α, (∀ a ∈ l, f a = .ok (g a)) → l.mapM f = Except.ok (l.map g) := by
  intro l
  induction l with
  | nil => intro _; rfl
  | cons a l ih =>
    intro h
    rw [List.mapM_cons, h a (List.mem_cons_self a l),
      ih (fun b hb => h b (List.mem_cons_of_mem a hb))]
    rfl

theorem exceptMapM_error_cons {α β : Type} (f : α → Except String β) (a : α) (l : List α)
    (e : String) (h : f a = .error e) : (a :: l).mapM f = Except.error e := by
  rw [List.mapM_cons, h]
  rfl

theorem map_getD_range (l : List Bool) :
    (List.range l.length).map (fun i => l.getD i false) = l := by
  apply List.ext_getElem?
  intro n
  rw [List.getElem?_map]
  by_cases hn : n < l.length
  · rw [List.getElem?_range hn, Option.map_some', List.getElem?_eq_getElem hn]
    congr 1
    unfold List.getD
    rw [List.get?_eq_getElem?, List.getElem?_eq_getElem hn]
    rfl
  · rw [List.getElem?_eq_none (by simpa using hn), List.getElem?_eq_none (by omega)]
    rfl

namespace Crypto

theorem getD_eq_getElem (enc : List Ct) (ctIdx : Nat) (hct : ctIdx < enc.length) :
    enc.getD ctIdx default = enc[ctIdx] := by
  unfold List.getD
  rw [List.get?_eq_getElem?, List.getElem?_eq_getElem hct]
  rfl

/-- For honest shares of the whole batch, the per-ciphertext verified
collection is exactly the honest partial decryptions of the participants. -/
theorem decIter_honest (ks : KeySet) (enc : List Ct) (idxs : List Nat) (ctIdx : Nat)
    (hct : ctIdx < enc.length) :
    (idxs.map fun i => decryption_share_for ks i enc).filterMap (fun s =>
      match s.share[ctIdx]? with
      | some (v, proofOk) =>
        (verify_share ks v proofOk (enc.getD ctIdx default) s.index).map fun vv => (s.index, vv)
      | none => none)
    = idxs.map fun i => (i, secretShare ks i * (enc.getD ctIdx default).random_element) := by
  rw [List.filterMap_map]
  have hgd : enc.getD ctIdx default = enc[ctIdx] := getD_eq_getElem enc ctIdx hct
  have hfun : ∀ i : Nat,
      ((fun s : DecryptionShare =>
        match s.share[ctIdx]? with
        | some (v, proofOk) =>
          (verify_share ks v proofOk (enc.getD ctIdx default) s.index).map fun vv => (s.index, vv)
        | none => none) ∘ fun i => decryption_share_for ks i enc) i
      = some (i, secretShare ks i * (enc.getD ctIdx default).random_element) := by
    intro i
    show (match (enc.map fun ct => (secretShare ks i * ct.random_element, true))[ctIdx]? with
      | some (v, proofOk) =>
        (verify_share ks v proofOk (enc.getD ctIdx default) i).map fun vv => (i, vv)
      | none => none) = _
    rw [List.getElem?_map, List.getElem?_eq_getElem hct, Option.map_some']
    show (verify_share ks (secretShare ks i * enc[ctIdx].random_element) true
      (enc.getD ctIdx default) i).map (fun vv => (i, vv)) = _
    rw [verify_share, hgd, if_pos ⟨rfl, rfl⟩, Option.map_some']
  exact filterMap_eq_map_of_some _ _ hfun idxs

theorem combinedDecrypt_encryptCt (k m r : Rat) :
    combinedDecrypt (k * r) (encryptCt k m r)
      = if m = 0 then some 0 else if m = 1 then some 1 else none := by
  rw [combinedDecrypt]
  have h : (encryptCt k m r).blinded_element - k * r = m := by
    show m + r * k - k * r = m
    ring
  rw [h]

end Crypto

namespace Crypto

/-- Fact: `decrypt_one` on `t` (or more) honest shares of a bit ciphertext
returns the bit; a plaintext outside `{0, 1}` is an out-of-range error. -/
theorem decrypt_one_honest (ks : KeySet) (enc : List Ct) (idxs : List Nat) (ctIdx : Nat)
    (hct : ctIdx < enc.length) (hnd : idxs.Nodup) (ht : ks.t ≤ idxs.length)
    (hcoef : ks.coeffs.length = ks.t) (m r : Rat)
    (hctval : enc.getD ctIdx default = encryptCt (sharedKey ks) m r) :
    decrypt_one ks enc (idxs.map fun i => decryption_share_for ks i enc) ctIdx
      = (if m = 0 then .ok false else if m = 1 then .ok true
          else .error "decrypted values out of range of lookup table") := by
  simp only [decrypt_one]
  rw [decIter_honest ks enc idxs ctIdx hct, hctval]
  have hre : (encryptCt (sharedKey ks) m r).random_element = r := rfl
  rw [hre, combine_shares_map_correct ks idxs r hnd ht hcoef]
  show (match combinedDecrypt (sharedKey ks * r) (encryptCt (sharedKey ks) m r) with
    | none => (.error "decrypted values out of range of lookup table" : Except String Bool)
    | some mm => .ok (mm == 1)) = _
  rw [combinedDecrypt_encryptCt]
  by_cases hm0 : m = 0
  · rw [if_pos hm0, if_pos hm0]
    rfl
  · rw [if_neg hm0, if_neg hm0]
    by_cases hm1 : m = 1
    · rw [if_pos hm1, if_pos hm1]
      rfl
    · rw [if_neg hm1, if_neg hm1]

/-- With fewer than `t` shares, `decrypt_one` fails in `combine_shares`. -/
theorem decrypt_one_too_few (ks : KeySet) (enc : List Ct) (idxs1 : List Nat) (ctIdx : Nat)
    (hct : ctIdx < enc.length) (hlt : idxs1.length < ks.t) :
    decrypt_one ks enc (idxs1.map fun i => decryption_share_for ks i enc) ctIdx
      = .error "failed to combine shares" := by
  simp only [decrypt_one]
  rw [decIter_honest ks enc idxs1 ctIdx hct,
    combine_shares, if_pos (by rw [List.length_map]; omega)]

end Crypto

/-- C2 counterexample: with the empty ciphertext batch (a legal batch) and
only `t - 1 = 1` valid share of the batch's length, `decrypt_shares` does
NOT return an error: the per-ciphertext combination loop never runs, so it
returns the empty bit vector.  (Amended claim: `claim_C2` below, for
nonempty batches.) -/
theorem claim_C2_counterexample :
    Crypto.decrypt_shares ⟨3, 2, [5, 3]⟩ []
      [Crypto.decryption_share_for ⟨3, 2, [5, 3]⟩ 0 []] = .ok [] := rfl

/-- C2 (amended: the `t - 1`-shares error requires a nonempty batch): for
every key set with a dealer polynomial of `t` coefficients and every batch
of encrypted bits, `decrypt_shares` with `t` valid shares from distinct
participants (each of the batch's length) returns the original plaintext
bits, and with only `t - 1` shares on a nonempty batch it returns an error
because `combine_shares` yields `None` below the threshold. -/
theorem claim_C2 (ks : Crypto.KeySet) (bits : List Bool) (rands : List Rat)
    (enc : List Ct) (idxs idxs1 : List Nat)
    (hcoef : ks.coeffs.length = ks.t)
    (hlen : rands.length = bits.length)
    (henc : enc = List.zipWith
      (fun b r => encryptCt (Crypto.sharedKey ks) (if b then 1 else 0) r) bits rands)
    (hnd : idxs.Nodup) (hidx : idxs.length = ks.t)
    (hidx1 : idxs1.length = ks.t - 1) (ht1 : 1 ≤ ks.t) (hne : bits ≠ []) :
    Crypto.decrypt_shares ks enc
        (idxs.map fun i => Crypto.decryption_share_for ks i enc) = .ok bits ∧
    Crypto.decrypt_shares ks enc
        (idxs1.map fun i => Crypto.decryption_share_for ks i enc)
      = .error "failed to combine shares" := by
  have henclen : enc.length = bits.length := by
    rw [henc, List.length_zipWith]
    omega
  have hguard : ∀ is : List Nat,
      ¬ ((is.map fun i => Crypto.decryption_share_for ks i enc).any
        fun s => decide (s.share.length ≠ enc.length)) = true := by
    intro is hany
    rw [List.any_eq_true] at hany
    obtain ⟨s, hs, hbad⟩ := hany
    rw [List.mem_map] at hs
    obtain ⟨i, _, rfl⟩ := hs
    simp [Crypto.decryption_share_for] at hbad
  constructor
  · rw [Crypto.decrypt_shares, if_neg (hguard idxs)]
    have hper : ∀ ctIdx ∈ List.range enc.length,
        Crypto.decrypt_one ks enc
          (idxs.map fun i => Crypto.decryption_share_for ks i enc) ctIdx
          = Except.ok (bits.getD ctIdx false) := by
      intro ctIdx hmem
      have hct : ctIdx < enc.length := List.mem_range.mp hmem
      have hb : ctIdx < bits.length := by omega
      have hr : ctIdx < rands.length := by omega
      have hq : enc[ctIdx]? = some (encryptCt (Crypto.sharedKey ks)
          (if bits[ctIdx] then 1 else 0) rands[ctIdx]) := by
        rw [henc, List.getElem?_zipWith, List.getElem?_eq_getElem hb,
          List.getElem?_eq_getElem hr]
      have hgd : enc.getD ctIdx default = encryptCt (Crypto.sharedKey ks)
          (if bits[ctIdx] then 1 else 0) rands[ctIdx] := by
        unfold List.getD
        rw [List.get?_eq_getElem?, hq]
        rfl
      rw [Crypto.decrypt_one_honest ks enc idxs ctIdx hct hnd (by omega) hcoef _ _ hgd]
      have hgdb : bits.getD ctIdx false = bits[ctIdx] := by
        unfold List.getD
        rw [List.get?_eq_getElem?, List.getElem?_eq_getElem hb]
        rfl
      rw [hgdb]
      cases hbv : bits[ctIdx] with
      | true => norm_num
      | false => norm_num
    rw [exceptMapM_ok _ (fun i => bits.getD i false) _ hper, henclen, map_getD_range]
  · rw [Crypto.decrypt_shares, if_neg (hguard idxs1)]
    have hpos : 0 < enc.length := by
      have : bits.length ≠ 0 := fun h0 => hne (List.eq_nil_of_length_eq_zero h0)
      omega
    have hsplit : enc.length = (enc.length - 1) + 1 := by omega
    rw [hsplit, List.range_succ_eq_map]
    exact exceptMapM_error_cons _ _ _ _
      (Crypto.decrypt_one_too_few ks enc idxs1 0 (by omega) (by omega))

/-- Witness for C2: `n = 3, t = 2`, dealer polynomial `5 + 3x`, batch of two
encrypted bits, shares from participants 0 and 2 (resp. only participant 1
for the error half). -/
theorem claim_C2_witness :
    (([0, 2] : List Nat).Nodup ∧ ([0, 2] : List Nat).length = ksW.t ∧
      ([1] : List Nat).length = ksW.t - 1 ∧ ([true, false] : List Bool) ≠ []) ∧
    (Crypto.decrypt_shares ksW encW
        ([0, 2].map fun i => Crypto.decryption_share_for ksW i encW) = .ok [true, false] ∧
      Crypto.decrypt_shares ksW encW
        ([1].map fun i => Crypto.decryption_share_for ksW i encW)
        = .error "failed to combine shares") :=
  ⟨⟨by decide, rfl, rfl, by decide⟩,
    claim_C2 ksW [true, false] [2, 7] encW [0, 2] [1] rfl rfl rfl (by decide) rfl rfl
      (by decide) (by decide)⟩
